import Mathlib

/-!
# A shallow embedding of the WebSocket signaling server (`src/server.js`)

The server keeps two global maps:
* `rooms    : Map<String, Set<WebSocket>>` — room id to its member connections;
* `peerByWs : Map<WebSocket, {roomId, userId}>` — connection to its association.

Each connection additionally owns two closure variables `roomId` / `userId`
(initialised to `null` on connect, assigned on a successful join, and never
reset afterwards).

We model a connection (`ws` object) by a natural number, JS `Map`s by
association lists, JS `Set`s of connections by duplicate-free lists that keep
insertion order, and the nondeterministic freshly generated user id
(`user-${Date.now()}-${Math.random()...}`) by an oracle string supplied with
each message event.  A JS `undefined`/missing string field that the code
tests with `||` is modelled as `""` (both are falsy); fields compared with
`===` that may be `undefined` (`msg.to`, `peerByWs.get(w)?.userId`) are
modelled as `Option String`.  `readyState === 1` is modelled by membership in
the set of open connections.
-/

/-- Connections (`ws` objects) are identified by naturals. -/
abbrev ConnId := Nat

/-- The `{ roomId, userId }` record stored in `peerByWs`. -/
structure PeerInfo where
  roomId : String
  userId : String
deriving DecidableEq, Repr

/-- The per-connection closure variables `roomId` / `userId` of
`wss.on('connection', ...)`; both start as `null`. -/
structure ConnVars where
  roomId : Option String
  userId : Option String
deriving DecidableEq, Repr

/-- Lookup in an association list, modelling `Map.get`. -/
def lookupA {K V : Type} [DecidableEq K] : List (K × V) → K → Option V
  | [], _ => none
  | p :: t, k => if p.1 = k then some p.2 else lookupA t k

/-- Remove a key, modelling `Map.delete`. -/
def eraseKeyA {K V : Type} [DecidableEq K] : List (K × V) → K → List (K × V)
  | [], _ => []
  | p :: t, k => if p.1 = k then eraseKeyA t k else p :: eraseKeyA t k

/-- Model of `Map.set`: bind a key to a value (position in the list is irrelevant:
the server never iterates over either map). -/
def upsertA {K V : Type} [DecidableEq K] (l : List (K × V)) (k : K) (v : V) : List (K × V) :=
  (k, v) :: eraseKeyA l k

/-- Model of `Set.add`: a no-op when the element is present, else appended (JS sets
iterate in insertion order). -/
def setAdd (l : List ConnId) (c : ConnId) : List ConnId :=
  if c ∈ l then l else l ++ [c]

/-- Model of `Set.delete` on a duplicate-free list. -/
def setDel : List ConnId → ConnId → List ConnId
  | [], _ => []
  | x :: t, c => if x = c then t else x :: setDel t c

/-- A whitespace character in the sense of `String.prototype.trim`
(restricted to the ASCII whitespace that room ids can realistically hold). -/
def isSpaceChar (c : Char) : Bool :=
  c = ' ' || c = '\t' || c = '\n' || c = '\r' || c = '\x0b' || c = '\x0c'

/-- Model of `toLowerCase` on one character (ASCII range). -/
def lowerChar (c : Char) : Char :=
  if 'A' ≤ c && c ≤ 'Z' then Char.ofNat (c.toNat + 32) else c

/-- Model of `trim`: drop leading and trailing whitespace. -/
def trimChars (l : List Char) : List Char :=
  ((l.dropWhile isSpaceChar).reverse.dropWhile isSpaceChar).reverse

/-- Model of `(msg.roomId || '').trim().toLowerCase()`, the room-key normalization. -/
def normalizeRoom (s : String) : String :=
  String.mk ((trimChars s.data).map lowerChar)

/-- The whole mutable state of the server process. -/
structure ServerState where
  /-- `rooms` : room id → set of member connections. -/
  rooms : List (String × List ConnId)
  /-- `peerByWs` : connection → `{roomId, userId}`. -/
  peerByWs : List (ConnId × PeerInfo)
  /-- the per-connection closure variables. -/
  vars : List (ConnId × ConnVars)
  /-- connections whose `readyState === 1`. -/
  openConns : List ConnId
deriving DecidableEq, Repr

/-- The empty initial state of the process. -/
def initState : ServerState := ⟨[], [], [], []⟩

/-- Model of `rooms.get(r)`, defaulted to the empty set. -/
def members (st : ServerState) (r : String) : List ConnId :=
  (lookupA st.rooms r).getD []

/-- The closure variables of a connection (absent ⇒ both `null`). -/
def varsOf (st : ServerState) (c : ConnId) : ConnVars :=
  (lookupA st.vars c).getD ⟨none, none⟩

/-- Model of `peerByWs.get(w)?.userId`. -/
def lookupUserId (st : ServerState) (c : ConnId) : Option String :=
  (lookupA st.peerByWs c).map PeerInfo.userId

/-- Model of the transport-level test `readyState === 1`. -/
def isOpen (st : ServerState) (c : ConnId) : Prop :=
  c ∈ st.openConns

instance (st : ServerState) (c : ConnId) : Decidable (isOpen st c) :=
  inferInstanceAs (Decidable (c ∈ st.openConns))

/-- The three relayed message types handled by one switch case. -/
inductive RelayType
  | offer
  | answer
  | iceCandidate
deriving DecidableEq, Repr

/-- A decoded inbound client message (`msg` after `JSON.parse`).  `join`
carries `roomId` and `userId` with `""` for a missing/falsy field; `signal`
covers `offer` / `answer` / `ice-candidate` with their `to`, `sdp` and
`candidate` fields (`none` = `undefined`); `other` is any unknown type. -/
inductive ClientMsg
  | join (roomId : String) (userId : String)
  | signal (t : RelayType) (toId : Option String) (sdp : Option String) (candidate : Option String)
  | leave
  | other
deriving DecidableEq, Repr

/-- An outbound server message (the JSON payloads built by the handler). -/
inductive ServerMsg
  | joined (roomId : String) (userId : String) (peers : List (Option String))
  | peerJoined (roomId : String) (userId : String)
  | relay (t : RelayType) (fromId : Option String) (toId : Option String)
      (sdp : Option String) (candidate : Option String)
  | peerLeft (userId : String)
  | error (message : String)
deriving DecidableEq, Repr

/-- Model of `send(ws, payload)`: delivered only when the target is open. -/
def send (st : ServerState) (c : ConnId) (m : ServerMsg) : List (ConnId × ServerMsg) :=
  if isOpen st c then [(c, m)] else []

/-- Model of `broadcastToRoom(roomId, payload)`. -/
def broadcastToRoom (st : ServerState) (r : String) (m : ServerMsg) :
    List (ConnId × ServerMsg) :=
  ((members st r).filter (fun w => decide (isOpen st w))).map (fun w => (w, m))

/-- Model of `broadcastToRoomExcept(roomId, excludeWs, payload)`. -/
def broadcastToRoomExcept (st : ServerState) (r : String) (ex : ConnId) (m : ServerMsg) :
    List (ConnId × ServerMsg) :=
  ((members st r).filter (fun w => decide (w ≠ ex ∧ isOpen st w))).map (fun w => (w, m))

/-- Model of `leaveRoom(ws)`, the teardown routine shared by the `leave` case and the
`close` handler.  Returns the new state and the messages sent. -/
def leaveRoom (st : ServerState) (c : ConnId) : ServerState × List (ConnId × ServerMsg) :=
  match lookupA st.peerByWs c with
  | none => (st, [])
  | some info =>
    let st1 : ServerState := { st with peerByWs := eraseKeyA st.peerByWs c }
    match lookupA st1.rooms info.roomId with
    | none => (st1, [])
    | some room =>
      let room' := setDel room c
      if room' = [] then
        ({ st1 with rooms := eraseKeyA st1.rooms info.roomId }, [])
      else
        let st2 : ServerState := { st1 with rooms := upsertA st1.rooms info.roomId room' }
        (st2, broadcastToRoom st2 info.roomId (.peerLeft info.userId))

/-- The body of `ws.on('message', ...)` for one decoded message.  `genId` is
the oracle for the freshly generated user id used when `msg.userId` is
falsy. -/
def handleMessage (st : ServerState) (c : ConnId) (m : ClientMsg) (genId : String) :
    ServerState × List (ConnId × ServerMsg) :=
  match m with
  | .join rid uid =>
    let requested := normalizeRoom rid
    if requested = "" then
      (st, send st c (.error "Room ID required"))
    else
      let room := members st requested
      if 2 ≤ room.length then
        (st, send st c (.error "Room is full (max 2 participants)"))
      else
        let newUid := if uid = "" then genId else uid
        let room' := setAdd room c
        let st' : ServerState :=
          { st with
            rooms := upsertA st.rooms requested room'
            peerByWs := upsertA st.peerByWs c ⟨requested, newUid⟩
            vars := upsertA st.vars c ⟨some requested, some newUid⟩ }
        let peersInRoom := (room'.filter (fun w => decide (w ≠ c))).map
          (fun w => lookupUserId st' w)
        (st', send st' c (.joined requested newUid peersInRoom)
          ++ broadcastToRoomExcept st' requested c (.peerJoined requested newUid))
  | .signal t toId sdp cand =>
    match (varsOf st c).roomId with
    | none => (st, send st c (.error "Join a room first"))
    | some r =>
      match lookupA st.rooms r with
      | none => (st, [])
      | some room =>
        match room.find? (fun w => decide (w ≠ c ∧ lookupUserId st w = toId)) with
        | none => (st, send st c (.error "Peer not found or disconnected"))
        | some tw =>
          if isOpen st tw then
            (st, send st tw (.relay t (varsOf st c).userId toId sdp cand))
          else
            (st, send st c (.error "Peer not found or disconnected"))
  | .leave => leaveRoom st c
  | .other => (st, send st c (.error "Unknown message type"))

/-- A transport event: a new connection, a decoded inbound message (with its
fresh-id oracle), or a transport close. -/
inductive Event
  | connect (c : ConnId)
  | message (c : ConnId) (m : ClientMsg) (genId : String)
  | close (c : ConnId)
deriving DecidableEq, Repr

/-- One transport event processed by the server.  `connect` installs the
`null` closure variables and marks the connection open; `close` marks it
closed and runs `leaveRoom`. -/
def step (st : ServerState) (e : Event) : ServerState × List (ConnId × ServerMsg) :=
  match e with
  | .connect c =>
    ({ st with
        vars := upsertA st.vars c ⟨none, none⟩
        openConns := if c ∈ st.openConns then st.openConns else c :: st.openConns }, [])
  | .message c m g => handleMessage st c m g
  | .close c => leaveRoom { st with openConns := st.openConns.erase c } c

/-- Run a list of events, collecting every message sent. -/
def runTrace (st : ServerState) : List Event → ServerState × List (ConnId × ServerMsg)
  | [] => (st, [])
  | e :: es =>
    let p := step st e
    let q := runTrace p.1 es
    (q.1, p.2 ++ q.2)

/-- Every room's member set holds at most 2 connections. -/
def RoomsBounded (st : ServerState) : Prop :=
  ∀ r, (members st r).length ≤ 2

/-- The rooms/registry consistency invariant: member sets are duplicate-free
and every member's registry entry names the room it sits in (hence at most
one room per connection). -/
def RoomsConsistent (st : ServerState) : Prop :=
  (∀ r, (members st r).Nodup) ∧
  (∀ r c, c ∈ members st r → ∃ u, lookupA st.peerByWs c = some ⟨r, u⟩)

/-- The event is not a `join` from a connection that is still associated. -/
def freshOk (st : ServerState) : Event → Bool
  | .message c (.join _ _) _ => (lookupA st.peerByWs c).isNone
  | _ => true

/-- No event in the list is a `join` from a still-associated connection. -/
def joinFresh : ServerState → List Event → Bool
  | _, [] => true
  | st, e :: es => freshOk st e && joinFresh (step st e).1 es

example : normalizeRoom " Room1 " = "room1" := by decide

example :
    (runTrace initState
      [.connect 1, .message 1 (.join "R" "alice") "g1",
       .connect 2, .message 2 (.join "r " "bob") "g2"]).2 =
    [(1, .joined "r" "alice" []),
     (2, .joined "r" "bob" [some "alice"]),
     (1, .peerJoined "r" "bob")] := by decide

/-! ## Association-list and set lemmas -/

theorem lookupA_upsert_self {K V : Type} [DecidableEq K] (l : List (K × V)) (k : K) (v : V) :
    lookupA (upsertA l k v) k = some v := by
  simp [upsertA, lookupA]

theorem lookupA_eraseKey_ne {K V : Type} [DecidableEq K] (l : List (K × V)) {k k' : K}
    (h : k' ≠ k) : lookupA (eraseKeyA l k) k' = lookupA l k' := by
  induction l with
  | nil => rfl
  | cons p t ih =>
    by_cases hp : p.1 = k
    · simp only [eraseKeyA, if_pos hp, lookupA, ih]
      rw [if_neg (by rw [hp]; exact fun hk => h hk.symm)]
    · simp only [eraseKeyA, if_neg hp, lookupA, ih]

theorem lookupA_eraseKey_self {K V : Type} [DecidableEq K] (l : List (K × V)) (k : K) :
    lookupA (eraseKeyA l k) k = none := by
  induction l with
  | nil => rfl
  | cons p t ih =>
    by_cases hp : p.1 = k
    · simp only [eraseKeyA, if_pos hp, ih]
    · simp only [eraseKeyA, if_neg hp, lookupA, if_neg hp, ih]

theorem lookupA_upsert_ne {K V : Type} [DecidableEq K] (l : List (K × V)) {k k' : K} (v : V)
    (h : k' ≠ k) : lookupA (upsertA l k v) k' = lookupA l k' := by
  have hk : ¬ (k = k') := fun hk => h hk.symm
  simp only [upsertA, lookupA, if_neg hk]
  exact lookupA_eraseKey_ne l h

theorem length_setAdd_le (l : List ConnId) (c : ConnId) :
    (setAdd l c).length ≤ l.length + 1 := by
  by_cases h : c ∈ l
  · simp [setAdd, h]
  · simp [setAdd, h]

theorem length_setDel_le (l : List ConnId) (c : ConnId) :
    (setDel l c).length ≤ l.length := by
  induction l with
  | nil => simp [setDel]
  | cons x t ih =>
    by_cases hx : x = c
    · simp [setDel, hx]
    · simp only [setDel, if_neg hx, List.length_cons]
      omega

theorem mem_setAdd {l : List ConnId} {c x : ConnId} :
    x ∈ setAdd l c ↔ x ∈ l ∨ x = c := by
  by_cases h : c ∈ l
  · simp only [setAdd, if_pos h]
    constructor
    · exact fun hx => Or.inl hx
    · rintro (hx | rfl) <;> [exact hx; exact h]
  · simp [setAdd, if_neg h]

theorem mem_of_mem_setDel {l : List ConnId} {c x : ConnId} (h : x ∈ setDel l c) : x ∈ l := by
  induction l with
  | nil => simp [setDel] at h
  | cons y t ih =>
    by_cases hy : y = c
    · rw [setDel, if_pos hy] at h
      exact List.mem_cons_of_mem y h
    · rw [setDel, if_neg hy] at h
      rcases List.mem_cons.mp h with h1 | h2
      · exact h1 ▸ List.mem_cons_self y t
      · exact List.mem_cons_of_mem y (ih h2)

theorem nodup_setAdd {l : List ConnId} (h : l.Nodup) (c : ConnId) : (setAdd l c).Nodup := by
  by_cases hc : c ∈ l
  · simpa [setAdd, hc] using h
  · rw [setAdd, if_neg hc, List.nodup_append]
    exact ⟨h, List.nodup_singleton c,
      fun x hx hxc => hc ((List.mem_singleton.mp hxc) ▸ hx)⟩

theorem nodup_setDel {l : List ConnId} (h : l.Nodup) (c : ConnId) : (setDel l c).Nodup := by
  induction l with
  | nil => simp [setDel]
  | cons y t ih =>
    rcases List.nodup_cons.mp h with ⟨hy, ht⟩
    by_cases hyc : y = c
    · rw [setDel, if_pos hyc]; exact ht
    · rw [setDel, if_neg hyc]
      exact List.nodup_cons.mpr ⟨fun hmem => hy (mem_of_mem_setDel hmem), ih ht⟩

theorem not_mem_setDel_self {l : List ConnId} (h : l.Nodup) (c : ConnId) :
    c ∉ setDel l c := by
  induction l with
  | nil => simp [setDel]
  | cons y t ih =>
    rcases List.nodup_cons.mp h with ⟨hy, ht⟩
    by_cases hyc : y = c
    · rw [setDel, if_pos hyc]
      exact fun hc => hy (hyc ▸ hc)
    · rw [setDel, if_neg hyc]
      intro hc
      rcases List.mem_cons.mp hc with h1 | h2
      · exact hyc h1.symm
      · exact ih ht h2

/-! ## The capacity invariant (claim C1) -/

theorem members_initState (r : String) : members initState r = [] := rfl

theorem signal_state_unchanged (st : ServerState) (c : ConnId) (t : RelayType)
    (toId sdp cand : Option String) (g : String) :
    (handleMessage st c (.signal t toId sdp cand) g).1 = st := by
  simp only [handleMessage]
  rcases (varsOf st c).roomId with _ | r
  · rfl
  · simp only []
    rcases hroom : lookupA st.rooms r with _ | room
    · rfl
    · simp only []
      rcases hfind : room.find? (fun w => decide (w ≠ c ∧ lookupUserId st w = toId)) with _ | tw
      · rfl
      · simp only []
        by_cases hopen : isOpen st tw
        · simp [hopen]
        · simp [hopen]

theorem leaveRoom_bounded {st : ServerState} (h : RoomsBounded st) (c : ConnId) :
    RoomsBounded (leaveRoom st c).1 := by
  unfold leaveRoom
  rcases hinfo : lookupA st.peerByWs c with _ | info
  · exact h
  · simp only []
    rcases hroom : lookupA st.rooms info.roomId with _ | room
    · exact h
    · simp only []
      by_cases hempty : setDel room c = []
      · rw [if_pos hempty]
        intro r
        by_cases hr : r = info.roomId
        · subst hr
          simp [members, lookupA_eraseKey_self]
        · simpa [members, lookupA_eraseKey_ne _ hr] using h r
      · rw [if_neg hempty]
        intro r
        by_cases hr : r = info.roomId
        · subst hr
          simp only [members, lookupA_upsert_self, Option.getD_some]
          have h1 : (setDel room c).length ≤ room.length := length_setDel_le room c
          have h2 : room.length ≤ 2 := by
            have := h info.roomId
            rw [members, hroom] at this
            simpa using this
          omega
        · simpa [members, lookupA_upsert_ne _ _ hr] using h r

theorem step_bounded {st : ServerState} (h : RoomsBounded st) (e : Event) :
    RoomsBounded (step st e).1 := by
  rcases e with c | ⟨c, m, g⟩ | c
  · exact h
  · rcases m with ⟨rid, uid⟩ | ⟨t, toId, sdp, cand⟩ | _ | _
    · simp only [step, handleMessage]
      by_cases hempty : normalizeRoom rid = ""
      · simpa [hempty] using h
      · rw [if_neg hempty]
        by_cases hfull : 2 ≤ (members st (normalizeRoom rid)).length
        · simpa [hfull] using h
        · rw [if_neg hfull]
          intro r
          by_cases hr : r = normalizeRoom rid
          · subst hr
            simp only [members, lookupA_upsert_self, Option.getD_some]
            simp only [members] at hfull
            have := length_setAdd_le ((lookupA st.rooms (normalizeRoom rid)).getD []) c
            omega
          · simpa [members, lookupA_upsert_ne _ _ hr] using h r
    · rw [step, signal_state_unchanged]
      exact h
    · exact leaveRoom_bounded h c
    · exact h
  · exact leaveRoom_bounded
      (show RoomsBounded { st with openConns := st.openConns.erase c } from h) c

theorem runTrace_bounded {st : ServerState} (h : RoomsBounded st) (es : List Event) :
    RoomsBounded (runTrace st es).1 := by
  induction es generalizing st with
  | nil => exact h
  | cons e t ih => exact ih (step_bounded h e)

/-- C1: for every sequence of events, no room ever holds more than 2 members;
a join on a full room is answered with the full-room error on the joining
connection and mutates nothing. -/
theorem join_capacity_two_and_full_rejected :
    (∀ es r, (members (runTrace initState es).1 r).length ≤ 2) ∧
    (∀ st c rid uid g, normalizeRoom rid ≠ "" →
      2 ≤ (members st (normalizeRoom rid)).length → isOpen st c →
      handleMessage st c (.join rid uid) g =
        (st, [(c, .error "Room is full (max 2 participants)")])) := by
  constructor
  · intro es r
    exact runTrace_bounded (fun r => by simp [members_initState]) es r
  · intro st c rid uid g hne hfull hopen
    simp only [handleMessage]
    rw [if_neg hne, if_pos hfull, send, if_pos hopen]

/-- Concrete witness for C1 at a full room. -/
theorem join_capacity_two_and_full_rejected_witness :
    (members (runTrace initState
      [.connect 1, .message 1 (.join "r" "a") "g1",
       .connect 2, .message 2 (.join "r" "b") "g2",
       .connect 3, .message 3 (.join "r" "c") "g3"]).1 "r").length ≤ 2 ∧
    handleMessage ⟨[("r", [1, 2])], [(1, ⟨"r", "a"⟩), (2, ⟨"r", "b"⟩)],
        [(1, ⟨some "r", some "a"⟩), (2, ⟨some "r", some "b"⟩)], [1, 2, 3]⟩
      3 (.join "r" "c") "g" =
      (⟨[("r", [1, 2])], [(1, ⟨"r", "a"⟩), (2, ⟨"r", "b"⟩)],
        [(1, ⟨some "r", some "a"⟩), (2, ⟨some "r", some "b"⟩)], [1, 2, 3]⟩,
       [(3, .error "Room is full (max 2 participants)")]) :=
  ⟨join_capacity_two_and_full_rejected.1 _ "r",
   join_capacity_two_and_full_rejected.2 _ 3 "r" "c" "g"
     (by decide) (by decide) (by decide)⟩

/-! ## Teardown is idempotent (claim C9) -/

theorem lookupA_peerByWs_leaveRoom (st : ServerState) (c : ConnId) :
    lookupA (leaveRoom st c).1.peerByWs c = none := by
  unfold leaveRoom
  rcases hinfo : lookupA st.peerByWs c with _ | info
  · exact hinfo
  · simp only []
    rcases hroom : lookupA st.rooms info.roomId with _ | room
    · exact lookupA_eraseKey_self _ c
    · simp only []
      by_cases hempty : setDel room c = []
      · rw [if_pos hempty]
        exact lookupA_eraseKey_self _ c
      · rw [if_neg hempty]
        exact lookupA_eraseKey_self _ c

/-- C9: teardown is idempotent — a second `leaveRoom` on the same connection
leaves the state untouched and sends nothing. -/
theorem teardown_idempotent (st : ServerState) (c : ConnId) :
    leaveRoom (leaveRoom st c).1 c = ((leaveRoom st c).1, []) := by
  have hkey := lookupA_peerByWs_leaveRoom st c
  generalize hst1 : (leaveRoom st c).1 = st1 at hkey ⊢
  unfold leaveRoom
  rw [hkey]

/-! ## Routing of offer / answer / ice-candidate (claims C2 and C3) -/

/-- C2: a signal from a joined participant whose room holds exactly the
sender and one other member, whose participant id matches `to` and whose
connection is open, is relayed to that member — and only to it — with the
`sdp` / `candidate` payload unmodified, `from` the sender's id and `to`
the target's id. -/
theorem signal_relayed_to_target (st : ServerState) (c d : ConnId) (t : RelayType)
    (r uid tid : String) (sdp cand : Option String) (g : String)
    (hvars : varsOf st c = ⟨some r, some uid⟩)
    (hpeer : lookupA st.peerByWs c = some ⟨r, uid⟩)
    (hroom : lookupA st.rooms r = some [c, d] ∨ lookupA st.rooms r = some [d, c])
    (hdc : d ≠ c)
    (htarget : lookupUserId st d = some tid)
    (hopen : isOpen st d) :
    handleMessage st c (.signal t (some tid) sdp cand) g =
      (st, [(d, .relay t (some uid) (some tid) sdp cand)]) := by
  have hfind : ∀ l, lookupA st.rooms r = some l →
      (l = [c, d] ∨ l = [d, c]) →
      l.find? (fun w => decide (w ≠ c ∧ lookupUserId st w = some tid)) = some d := by
    rintro l _ (rfl | rfl)
    · simp [List.find?, htarget, hdc]
    · simp [List.find?, htarget, hdc]
  rcases hroom with h | h
  · simp only [handleMessage, hvars, h, hfind _ h (Or.inl rfl), if_pos hopen, send, hvars]
  · simp only [handleMessage, hvars, h, hfind _ h (Or.inr rfl), if_pos hopen, send, hvars]

/-- C3: a signal from a joined participant whose (existing) room has no
other member that both matches `to` and is open is answered with the
peer-not-found error on the sender, and delivered to nobody. -/
theorem signal_peer_not_found (st : ServerState) (c : ConnId) (t : RelayType)
    (toId sdp cand : Option String) (g : String) (r : String) (room : List ConnId)
    (hvars : (varsOf st c).roomId = some r)
    (hroom : lookupA st.rooms r = some room)
    (hnone : ∀ w ∈ room, w ≠ c → ¬(lookupUserId st w = toId ∧ isOpen st w))
    (hopen : isOpen st c) :
    handleMessage st c (.signal t toId sdp cand) g =
      (st, [(c, .error "Peer not found or disconnected")]) := by
  rcases hfind : room.find? (fun w => decide (w ≠ c ∧ lookupUserId st w = toId)) with _ | tw
  · simp only [handleMessage, hvars, hroom, hfind, send, if_pos hopen]
  · have hp := List.find?_some hfind
    have hmem := List.mem_of_find?_eq_some hfind
    rw [decide_eq_true_eq] at hp
    have hnotopen : ¬ isOpen st tw := fun ho => hnone tw hmem hp.1 ⟨hp.2, ho⟩
    simp only [handleMessage, hvars, hroom, hfind, if_neg hnotopen, send, if_pos hopen]

/-- Concrete witness for C2: a two-member room, an offer relayed to the peer. -/
theorem signal_relayed_to_target_witness :
    handleMessage
      ⟨[("r", [1, 2])], [(1, ⟨"r", "a"⟩), (2, ⟨"r", "b"⟩)],
       [(1, ⟨some "r", some "a"⟩), (2, ⟨some "r", some "b"⟩)], [1, 2]⟩
      1 (.signal .offer (some "b") (some "sdp-payload") none) "g" =
    (⟨[("r", [1, 2])], [(1, ⟨"r", "a"⟩), (2, ⟨"r", "b"⟩)],
       [(1, ⟨some "r", some "a"⟩), (2, ⟨some "r", some "b"⟩)], [1, 2]⟩,
     [(2, .relay .offer (some "a") (some "b") (some "sdp-payload") none)]) :=
  signal_relayed_to_target _ 1 2 .offer "r" "a" "b" (some "sdp-payload") none "g"
    (by decide) (by decide) (Or.inl (by decide)) (by decide) (by decide) (by decide)

/-- Concrete witness for C3: a sole member addressing an absent peer. -/
theorem signal_peer_not_found_witness :
    handleMessage
      ⟨[("r", [1])], [(1, ⟨"r", "a"⟩)], [(1, ⟨some "r", some "a"⟩)], [1]⟩
      1 (.signal .offer (some "ghost") (some "sdp-payload") none) "g" =
    (⟨[("r", [1])], [(1, ⟨"r", "a"⟩)], [(1, ⟨some "r", some "a"⟩)], [1]⟩,
     [(1, .error "Peer not found or disconnected")]) :=
  signal_peer_not_found _ 1 .offer (some "ghost") (some "sdp-payload") none "g" "r" [1]
    (by decide) (by decide) (by decide) (by decide)

/-- Unfolding of the success path of the `join` case. -/
theorem join_success_eq (st : ServerState) (c : ConnId) (rid uid g : String)
    (hne : normalizeRoom rid ≠ "")
    (hlen : ¬ 2 ≤ (members st (normalizeRoom rid)).length) :
    handleMessage st c (.join rid uid) g =
      (⟨upsertA st.rooms (normalizeRoom rid) (setAdd (members st (normalizeRoom rid)) c),
        upsertA st.peerByWs c ⟨normalizeRoom rid, if uid = "" then g else uid⟩,
        upsertA st.vars c ⟨some (normalizeRoom rid), some (if uid = "" then g else uid)⟩,
        st.openConns⟩,
       send ⟨upsertA st.rooms (normalizeRoom rid) (setAdd (members st (normalizeRoom rid)) c),
          upsertA st.peerByWs c ⟨normalizeRoom rid, if uid = "" then g else uid⟩,
          upsertA st.vars c ⟨some (normalizeRoom rid), some (if uid = "" then g else uid)⟩,
          st.openConns⟩ c
         (.joined (normalizeRoom rid) (if uid = "" then g else uid)
           (((setAdd (members st (normalizeRoom rid)) c).filter
              (fun w => decide (w ≠ c))).map
             (fun w => lookupUserId
               ⟨upsertA st.rooms (normalizeRoom rid) (setAdd (members st (normalizeRoom rid)) c),
                upsertA st.peerByWs c ⟨normalizeRoom rid, if uid = "" then g else uid⟩,
                upsertA st.vars c ⟨some (normalizeRoom rid), some (if uid = "" then g else uid)⟩,
                st.openConns⟩ w))) ++
       broadcastToRoomExcept
         ⟨upsertA st.rooms (normalizeRoom rid) (setAdd (members st (normalizeRoom rid)) c),
          upsertA st.peerByWs c ⟨normalizeRoom rid, if uid = "" then g else uid⟩,
          upsertA st.vars c ⟨some (normalizeRoom rid), some (if uid = "" then g else uid)⟩,
          st.openConns⟩ (normalizeRoom rid) c
         (.peerJoined (normalizeRoom rid) (if uid = "" then g else uid))) := by
  simp only [handleMessage, if_neg hne, if_neg hlen]

/-! ## Disconnect notifies the remaining member (claim C8) -/

/-- C8: when one of two joined participants disconnects, the remaining open
participant receives exactly one `peer-left` naming the departed id, and the
departing connection receives nothing. -/
theorem close_notifies_remaining (st : ServerState) (d m : ConnId) (r ud : String)
    (hdm : d ≠ m)
    (hroom : lookupA st.rooms r = some [d, m] ∨ lookupA st.rooms r = some [m, d])
    (hpeer : lookupA st.peerByWs d = some ⟨r, ud⟩)
    (hopen : m ∈ st.openConns) :
    (step st (.close d)).2 = [(m, .peerLeft ud)] ∧
    members (step st (.close d)).1 r = [m] := by
  have hmd : m ≠ d := fun h => hdm h.symm
  have hopen' : m ∈ st.openConns.erase d := (List.mem_erase_of_ne hmd).mpr hopen
  have hne : ([m] : List ConnId) ≠ [] := by simp
  rcases hroom with h | h
  · have hdel : setDel [d, m] d = [m] := by simp [setDel]
    simp only [step, leaveRoom, hpeer, h, hdel, if_neg hne]
    constructor
    · simp [broadcastToRoom, members, lookupA_upsert_self, isOpen, hopen']
    · simp [members, lookupA_upsert_self]
  · have hdel : setDel [m, d] d = [m] := by simp [setDel, hmd]
    simp only [step, leaveRoom, hpeer, h, hdel, if_neg hne]
    constructor
    · simp [broadcastToRoom, members, lookupA_upsert_self, isOpen, hopen']
    · simp [members, lookupA_upsert_self]

/-! ## A second join by the sole member of a room (claim C10) -/

/-- C10: a second `join` for the same normalized room id from the room's sole
member is accepted again: the member set stays `[c]`, the response is a
fresh `joined` with no peers, nothing is broadcast, and the recorded user id
becomes the new one (the freshly generated oracle when `userId` is absent). -/
theorem rejoin_sole_member (st : ServerState) (c : ConnId) (rid u2 g : String)
    (hne : normalizeRoom rid ≠ "")
    (hroom : lookupA st.rooms (normalizeRoom rid) = some [c])
    (hopen : isOpen st c) :
    members (handleMessage st c (.join rid u2) g).1 (normalizeRoom rid) = [c] ∧
    lookupA (handleMessage st c (.join rid u2) g).1.peerByWs c =
      some ⟨normalizeRoom rid, if u2 = "" then g else u2⟩ ∧
    (handleMessage st c (.join rid u2) g).2 =
      [(c, .joined (normalizeRoom rid) (if u2 = "" then g else u2) [])] := by
  have hm : (lookupA st.rooms (normalizeRoom rid)).getD [] = [c] := by
    rw [hroom]
    rfl
  have hlen : ¬ 2 ≤ (members st (normalizeRoom rid)).length := by
    rw [members, hm]
    simp
  have hopen' : c ∈ st.openConns := hopen
  rw [join_success_eq st c rid u2 g hne hlen]
  refine ⟨?_, ?_, ?_⟩
  · simp [members, hm, setAdd, lookupA_upsert_self]
  · simp [lookupA_upsert_self]
  · simp [members, hm, setAdd, send, broadcastToRoomExcept,
      lookupA_upsert_self, isOpen, hopen']

/-- Concrete witness for C8: closing one of two members. -/
theorem close_notifies_remaining_witness :
    (step ⟨[("r", [1, 2])], [(1, ⟨"r", "a"⟩), (2, ⟨"r", "b"⟩)],
        [(1, ⟨some "r", some "a"⟩), (2, ⟨some "r", some "b"⟩)], [1, 2]⟩
      (.close 1)).2 = [(2, .peerLeft "a")] ∧
    members (step ⟨[("r", [1, 2])], [(1, ⟨"r", "a"⟩), (2, ⟨"r", "b"⟩)],
        [(1, ⟨some "r", some "a"⟩), (2, ⟨some "r", some "b"⟩)], [1, 2]⟩
      (.close 1)).1 "r" = [2] :=
  close_notifies_remaining _ 1 2 "r" "a" (by decide) (Or.inl (by decide))
    (by decide) (by decide)

/-- Concrete witness for C10: a sole member re-joins with `userId` absent. -/
theorem rejoin_sole_member_witness :
    members (handleMessage ⟨[("r", [1])], [(1, ⟨"r", "old"⟩)],
        [(1, ⟨some "r", some "old"⟩)], [1]⟩ 1 (.join "r" "") "fresh").1
      (normalizeRoom "r") = [1] ∧
    lookupA (handleMessage ⟨[("r", [1])], [(1, ⟨"r", "old"⟩)],
        [(1, ⟨some "r", some "old"⟩)], [1]⟩ 1 (.join "r" "") "fresh").1.peerByWs 1 =
      some ⟨normalizeRoom "r", if "" = "" then "fresh" else ""⟩ ∧
    (handleMessage ⟨[("r", [1])], [(1, ⟨"r", "old"⟩)],
        [(1, ⟨some "r", some "old"⟩)], [1]⟩ 1 (.join "r" "") "fresh").2 =
      [(1, .joined (normalizeRoom "r") (if "" = "" then "fresh" else "") [])] :=
  rejoin_sole_member _ 1 "r" "" "fresh" (by decide) (by decide) (by decide)

/-! ## Joining an absent room (used by claims C4, C5, C7) -/

/-- A `join` with a caller-supplied user id on a room id that is not in the
registry creates the room with the joiner as sole member and answers
`joined` with no peers and no broadcast. -/
theorem join_absent_room (st : ServerState) (c : ConnId) (rid uid g : String)
    (hne : normalizeRoom rid ≠ "") (huid : uid ≠ "")
    (habs : lookupA st.rooms (normalizeRoom rid) = none)
    (hopen : isOpen st c) :
    handleMessage st c (.join rid uid) g =
      (⟨upsertA st.rooms (normalizeRoom rid) [c],
        upsertA st.peerByWs c ⟨normalizeRoom rid, uid⟩,
        upsertA st.vars c ⟨some (normalizeRoom rid), some uid⟩,
        st.openConns⟩,
       [(c, .joined (normalizeRoom rid) uid [])]) := by
  have hm : (lookupA st.rooms (normalizeRoom rid)).getD [] = [] := by
    rw [habs]
    rfl
  have hlen : ¬ 2 ≤ (members st (normalizeRoom rid)).length := by
    rw [members, hm]
    simp
  have hopen' : c ∈ st.openConns := hopen
  rw [join_success_eq st c rid uid g hne hlen]
  simp [members, hm, setAdd, send, broadcastToRoomExcept,
    lookupA_upsert_self, isOpen, hopen', huid]

/-! ## Second joiner: `joined` to B, `peer-joined` to A (claim C4) -/

/-- C4: when A joins an absent room and B then joins the same room (both
open, distinct), the first join sends exactly one `joined` (empty peers) to
A, and the second join sends exactly one `joined` listing A to B and
exactly one `peer-joined` naming B to A — and nothing to anyone else. -/
theorem second_join_notifies_both (st : ServerState) (a b : ConnId)
    (rid ua ub g1 g2 : String)
    (hab : a ≠ b) (hne : normalizeRoom rid ≠ "") (hua : ua ≠ "") (hub : ub ≠ "")
    (habs : lookupA st.rooms (normalizeRoom rid) = none)
    (hopenA : isOpen st a) (hopenB : isOpen st b) :
    (handleMessage st a (.join rid ua) g1).2 =
      [(a, .joined (normalizeRoom rid) ua [])] ∧
    (handleMessage (handleMessage st a (.join rid ua) g1).1 b (.join rid ub) g2).2 =
      [(b, .joined (normalizeRoom rid) ub [some ua]),
       (a, .peerJoined (normalizeRoom rid) ub)] := by
  have hba : b ≠ a := fun h => hab h.symm
  rw [join_absent_room st a rid ua g1 hne hua habs hopenA]
  refine ⟨rfl, ?_⟩
  have hm1 : (lookupA (upsertA st.rooms (normalizeRoom rid) [a]) (normalizeRoom rid)).getD []
      = [a] := by
    rw [lookupA_upsert_self]
    rfl
  have hlen1 : ¬ 2 ≤ (members
      (⟨upsertA st.rooms (normalizeRoom rid) [a],
        upsertA st.peerByWs a ⟨normalizeRoom rid, ua⟩,
        upsertA st.vars a ⟨some (normalizeRoom rid), some ua⟩,
        st.openConns⟩ : ServerState) (normalizeRoom rid)).length := by
    rw [members]
    simp only [hm1]
    simp
  rw [join_success_eq _ b rid ub g2 hne hlen1]
  have haddb : setAdd [a] b = [a, b] := by
    simp [setAdd, hba]
  have hopenA' : a ∈ st.openConns := hopenA
  have hopenB' : b ∈ st.openConns := hopenB
  simp only [members, hm1, haddb]
  simp [send, broadcastToRoomExcept, members, lookupA_upsert_self,
    lookupA_upsert_ne _ _ hab, lookupUserId, isOpen, hopenA', hopenB',
    hab, hba, hub]

/-- Concrete witness for C4: two joins into a fresh room. -/
theorem second_join_notifies_both_witness :
    (handleMessage ⟨[], [], [], [1, 2]⟩ 1 (.join "room" "a") "g1").2 =
      [(1, .joined (normalizeRoom "room") "a" [])] ∧
    (handleMessage (handleMessage ⟨[], [], [], [1, 2]⟩ 1 (.join "room" "a") "g1").1
        2 (.join "room" "b") "g2").2 =
      [(2, .joined (normalizeRoom "room") "b" [some "a"]),
       (1, .peerJoined (normalizeRoom "room") "b")] :=
  second_join_notifies_both _ 1 2 "room" "a" "b" "g1" "g2"
    (by decide) (by decide) (by decide) (by decide) (by decide)
    (by decide) (by decide)

/-! ## Last leave deletes the room; a later join recreates it (claim C7) -/

/-- C7: a `leave` message or a disconnect by the sole member of a room
removes the room entry entirely, and a later join with an equally-normalized
room id creates a fresh room holding exactly the new joiner, whose `joined`
response lists no peers. -/
theorem last_leave_deletes_room (st : ServerState) (a b : ConnId)
    (rid rid2 u ub g0 g2 : String)
    (hba : b ≠ a)
    (hr2 : normalizeRoom rid2 = normalizeRoom rid)
    (hne : normalizeRoom rid ≠ "") (hub : ub ≠ "")
    (hroom : lookupA st.rooms (normalizeRoom rid) = some [a])
    (hpeer : lookupA st.peerByWs a = some ⟨normalizeRoom rid, u⟩)
    (hopenB : isOpen st b) :
    lookupA (step st (.message a .leave g0)).1.rooms (normalizeRoom rid) = none ∧
    lookupA (step st (.close a)).1.rooms (normalizeRoom rid) = none ∧
    members (handleMessage (step st (.close a)).1 b (.join rid2 ub) g2).1
      (normalizeRoom rid) = [b] ∧
    (handleMessage (step st (.close a)).1 b (.join rid2 ub) g2).2 =
      [(b, .joined (normalizeRoom rid) ub [])] := by
  have hdel : setDel [a] a = [] := by simp [setDel]
  have hclose : step st (.close a) =
      (⟨eraseKeyA st.rooms (normalizeRoom rid), eraseKeyA st.peerByWs a,
        st.vars, st.openConns.erase a⟩, []) := by
    simp only [step, leaveRoom, hpeer, hroom, hdel, if_pos]
  have hleave : step st (.message a .leave g0) =
      (⟨eraseKeyA st.rooms (normalizeRoom rid), eraseKeyA st.peerByWs a,
        st.vars, st.openConns⟩, []) := by
    simp only [step, handleMessage, leaveRoom, hpeer, hroom, hdel, if_pos]
  have hopenB' : b ∈ st.openConns.erase a := (List.mem_erase_of_ne hba).mpr hopenB
  have hne2 : normalizeRoom rid2 ≠ "" := by rw [hr2]; exact hne
  have habs2 : lookupA (eraseKeyA st.rooms (normalizeRoom rid)) (normalizeRoom rid2)
      = none := by
    rw [hr2]
    exact lookupA_eraseKey_self _ _
  have hopenB2 : isOpen (⟨eraseKeyA st.rooms (normalizeRoom rid),
      eraseKeyA st.peerByWs a, st.vars, st.openConns.erase a⟩ : ServerState) b := hopenB'
  refine ⟨?_, ?_, ?_, ?_⟩
  · rw [hleave]
    exact lookupA_eraseKey_self _ _
  · rw [hclose]
    exact lookupA_eraseKey_self _ _
  · rw [hclose]
    rw [join_absent_room _ b rid2 ub g2 hne2 hub habs2 hopenB2]
    simp [members, hr2, lookupA_upsert_self]
  · rw [hclose]
    rw [join_absent_room _ b rid2 ub g2 hne2 hub habs2 hopenB2]
    simp [hr2]

/-- Concrete witness for C7. -/
theorem last_leave_deletes_room_witness :
    lookupA (step ⟨[("r", [1])], [(1, ⟨"r", "a"⟩)], [(1, ⟨some "r", some "a"⟩)], [1, 2]⟩
      (.message 1 .leave "g0")).1.rooms (normalizeRoom "r") = none ∧
    lookupA (step ⟨[("r", [1])], [(1, ⟨"r", "a"⟩)], [(1, ⟨some "r", some "a"⟩)], [1, 2]⟩
      (.close 1)).1.rooms (normalizeRoom "r") = none ∧
    members (handleMessage (step ⟨[("r", [1])], [(1, ⟨"r", "a"⟩)],
        [(1, ⟨some "r", some "a"⟩)], [1, 2]⟩ (.close 1)).1 2 (.join "R" "b") "g2").1
      (normalizeRoom "r") = [2] ∧
    (handleMessage (step ⟨[("r", [1])], [(1, ⟨"r", "a"⟩)],
        [(1, ⟨some "r", some "a"⟩)], [1, 2]⟩ (.close 1)).1 2 (.join "R" "b") "g2").2 =
      [(2, .joined (normalizeRoom "r") "b" [])] :=
  last_leave_deletes_room _ 1 2 "r" "R" "a" "b" "g0" "g2"
    (by decide) (by decide) (by decide) (by decide) (by decide) (by decide) (by decide)

/-! ## After a `leave`, the connection is NOT terminal (claim C5) -/

/-- C5 counterexample: connection 1 joins room "r", sends `leave`, and then
successfully joins again — the later message is dispatched, the join is
answered with a second `joined`, and the connection is back in the room's
member set, contradicting the claim that the post-leave state is terminal. -/
theorem rejoin_after_leave_counterexample :
    (runTrace initState
      [.connect 1, .message 1 (.join "r" "a") "g1",
       .message 1 .leave "g0", .message 1 (.join "r" "b") "g2"]).2 =
      [(1, .joined "r" "a" []), (1, .joined "r" "b" [])] ∧
    members (runTrace initState
      [.connect 1, .message 1 (.join "r" "a") "g1",
       .message 1 .leave "g0", .message 1 (.join "r" "b") "g2"]).1 "r" = [1] ∧
    lookupA (runTrace initState
      [.connect 1, .message 1 (.join "r" "a") "g1",
       .message 1 .leave "g0", .message 1 (.join "r" "b") "g2"]).1.peerByWs 1 =
      some ⟨"r", "b"⟩ := by decide

/-- C5 (amended): a transport close is modelled as the end of the event
stream for that connection, but an explicit `leave` message does not make
the connection terminal — the message handler stays attached, and a
subsequent `join` succeeds and re-enters the joined state. -/
theorem rejoin_after_leave (c : ConnId) (rid u1 u2 g0 g1 g2 : String)
    (hne : normalizeRoom rid ≠ "") (hu1 : u1 ≠ "") (hu2 : u2 ≠ "") :
    members (runTrace initState
      [.connect c, .message c (.join rid u1) g1,
       .message c .leave g0, .message c (.join rid u2) g2]).1
      (normalizeRoom rid) = [c] ∧
    lookupA (runTrace initState
      [.connect c, .message c (.join rid u1) g1,
       .message c .leave g0, .message c (.join rid u2) g2]).1.peerByWs c =
      some ⟨normalizeRoom rid, u2⟩ ∧
    (runTrace initState
      [.connect c, .message c (.join rid u1) g1,
       .message c .leave g0, .message c (.join rid u2) g2]).2 =
      [(c, .joined (normalizeRoom rid) u1 []), (c, .joined (normalizeRoom rid) u2 [])] := by
  have hA : step initState (.connect c) =
      ((⟨[], [], [(c, ⟨none, none⟩)], [c]⟩ : ServerState), []) := by
    simp [step, initState, upsertA, eraseKeyA]
  have hB : step (⟨[], [], [(c, ⟨none, none⟩)], [c]⟩ : ServerState)
      (.message c (.join rid u1) g1) =
      ((⟨[(normalizeRoom rid, [c])], [(c, ⟨normalizeRoom rid, u1⟩)],
        [(c, ⟨some (normalizeRoom rid), some u1⟩)], [c]⟩ : ServerState),
       [(c, .joined (normalizeRoom rid) u1 [])]) := by
    have h := join_absent_room (⟨[], [], [(c, ⟨none, none⟩)], [c]⟩ : ServerState)
      c rid u1 g1 hne hu1 rfl (by simp [isOpen])
    simpa [upsertA, eraseKeyA] using h
  have hC : step (⟨[(normalizeRoom rid, [c])], [(c, ⟨normalizeRoom rid, u1⟩)],
        [(c, ⟨some (normalizeRoom rid), some u1⟩)], [c]⟩ : ServerState)
      (.message c .leave g0) =
      ((⟨[], [], [(c, ⟨some (normalizeRoom rid), some u1⟩)], [c]⟩ : ServerState), []) := by
    simp [step, handleMessage, leaveRoom, lookupA, eraseKeyA, setDel]
  have hD : step (⟨[], [], [(c, ⟨some (normalizeRoom rid), some u1⟩)], [c]⟩ : ServerState)
      (.message c (.join rid u2) g2) =
      ((⟨[(normalizeRoom rid, [c])], [(c, ⟨normalizeRoom rid, u2⟩)],
        [(c, ⟨some (normalizeRoom rid), some u2⟩)], [c]⟩ : ServerState),
       [(c, .joined (normalizeRoom rid) u2 [])]) := by
    have h := join_absent_room (⟨[], [], [(c, ⟨some (normalizeRoom rid), some u1⟩)], [c]⟩
        : ServerState) c rid u2 g2 hne hu2 rfl (by simp [isOpen])
    simpa [upsertA, eraseKeyA] using h
  simp only [runTrace, hA, hB, hC, hD, List.nil_append, List.append_nil,
    List.singleton_append, List.cons_append]
  refine ⟨?_, ?_, ?_⟩
  · simp [members, lookupA]
  · simp [lookupA]
  · trivial

/-- Concrete witness for the amended C5. -/
theorem rejoin_after_leave_witness :
    members (runTrace initState
      [.connect 7, .message 7 (.join "lobby" "u1") "g1",
       .message 7 .leave "g0", .message 7 (.join "lobby" "u2") "g2"]).1
      (normalizeRoom "lobby") = [7] ∧
    lookupA (runTrace initState
      [.connect 7, .message 7 (.join "lobby" "u1") "g1",
       .message 7 .leave "g0", .message 7 (.join "lobby" "u2") "g2"]).1.peerByWs 7 =
      some ⟨normalizeRoom "lobby", "u2"⟩ ∧
    (runTrace initState
      [.connect 7, .message 7 (.join "lobby" "u1") "g1",
       .message 7 .leave "g0", .message 7 (.join "lobby" "u2") "g2"]).2 =
      [(7, .joined (normalizeRoom "lobby") "u1" []),
       (7, .joined (normalizeRoom "lobby") "u2" [])] :=
  rejoin_after_leave 7 "lobby" "u1" "u2" "g0" "g1" "g2"
    (by decide) (by decide) (by decide)

/-! ## A connection can end up in two rooms at once (claim C6) -/

/-- C6 counterexample: a second `join` from an already-associated connection
overwrites its `peerByWs` association and leaves the connection in the
member sets of two distinct rooms at once. -/
theorem join_overwrites_association_counterexample :
    1 ∈ members (runTrace initState
      [.connect 1, .message 1 (.join "a" "u") "g", .message 1 (.join "b" "u") "g"]).1
      "a" ∧
    1 ∈ members (runTrace initState
      [.connect 1, .message 1 (.join "a" "u") "g", .message 1 (.join "b" "u") "g"]).1
      "b" ∧
    ("a" : String) ≠ "b" ∧
    lookupA (runTrace initState
      [.connect 1, .message 1 (.join "a" "u") "g", .message 1 (.join "b" "u") "g"]).1.peerByWs
      1 = some ⟨"b", "u"⟩ := by decide

theorem consistent_init : RoomsConsistent initState := by
  constructor
  · intro r
    simp [members, initState, lookupA]
  · intro r c h
    simp [members, initState, lookupA] at h

theorem leaveRoom_characterization (st : ServerState) (c : ConnId) :
    (lookupA st.peerByWs c = none ∧ (leaveRoom st c).1 = st) ∨
    (∃ info, lookupA st.peerByWs c = some info ∧
      (∀ c', lookupA (leaveRoom st c).1.peerByWs c' =
        if c' = c then none else lookupA st.peerByWs c') ∧
      (∀ r, members (leaveRoom st c).1 r =
        if r = info.roomId then setDel (members st r) c else members st r)) := by
  unfold leaveRoom
  rcases hinfo : lookupA st.peerByWs c with _ | info
  · exact Or.inl ⟨rfl, rfl⟩
  · refine Or.inr ⟨info, rfl, ?_⟩
    simp only []
    have hpeers : ∀ c', lookupA (eraseKeyA st.peerByWs c) c' =
        if c' = c then none else lookupA st.peerByWs c' := by
      intro c'
      by_cases hc : c' = c
      · subst hc
        rw [if_pos rfl]
        exact lookupA_eraseKey_self _ _
      · rw [if_neg hc]
        exact lookupA_eraseKey_ne _ hc
    rcases hroom : lookupA st.rooms info.roomId with _ | room
    · refine ⟨hpeers, ?_⟩
      intro r
      by_cases hr : r = info.roomId
      · subst hr
        rw [if_pos rfl]
        simp [members, hroom, setDel]
      · rw [if_neg hr]
        rfl
    · simp only []
      by_cases hempty : setDel room c = []
      · rw [if_pos hempty]
        refine ⟨hpeers, ?_⟩
        intro r
        by_cases hr : r = info.roomId
        · subst hr
          rw [if_pos rfl]
          simp only [members, lookupA_eraseKey_self, hroom,
            Option.getD_some, Option.getD_none]
          exact hempty.symm
        · rw [if_neg hr]
          simp only [members, lookupA_eraseKey_ne _ hr]
      · rw [if_neg hempty]
        refine ⟨hpeers, ?_⟩
        intro r
        by_cases hr : r = info.roomId
        · subst hr
          rw [if_pos rfl]
          simp only [members, lookupA_upsert_self, hroom,
            Option.getD_some]
        · rw [if_neg hr]
          simp only [members, lookupA_upsert_ne _ _ hr]

theorem consistent_leaveRoom {st : ServerState} (h : RoomsConsistent st) (c : ConnId) :
    RoomsConsistent (leaveRoom st c).1 := by
  rcases leaveRoom_characterization st c with ⟨_, hst⟩ | ⟨info, hinfo, hpeer, hmem⟩
  · rw [hst]
    exact h
  · constructor
    · intro r
      rw [hmem r]
      by_cases hr : r = info.roomId
      · rw [if_pos hr]
        exact nodup_setDel (h.1 r) c
      · rw [if_neg hr]
        exact h.1 r
    · intro r c' hmem'
      rw [hmem r] at hmem'
      by_cases hr : r = info.roomId
      · rw [if_pos hr] at hmem'
        have hc'mem : c' ∈ members st r := mem_of_mem_setDel hmem'
        obtain ⟨u, hu⟩ := h.2 r c' hc'mem
        have hne : c' ≠ c := by
          rintro rfl
          exact not_mem_setDel_self (h.1 r) c' hmem'
        refine ⟨u, ?_⟩
        rw [hpeer c', if_neg hne]
        exact hu
      · rw [if_neg hr] at hmem'
        obtain ⟨u, hu⟩ := h.2 r c' hmem'
        have hne : c' ≠ c := by
          rintro rfl
          rw [hinfo] at hu
          have : info = ⟨r, u⟩ := Option.some.inj hu
          exact hr (by rw [this])
        refine ⟨u, ?_⟩
        rw [hpeer c', if_neg hne]
        exact hu

theorem consistent_join {st : ServerState} {c : ConnId} {rid uid g : String}
    (h : RoomsConsistent st) (hfresh : lookupA st.peerByWs c = none) :
    RoomsConsistent (handleMessage st c (.join rid uid) g).1 := by
  by_cases hne : normalizeRoom rid = ""
  · simp only [handleMessage, if_pos hne]
    exact h
  · by_cases hfull : 2 ≤ (members st (normalizeRoom rid)).length
    · simp only [handleMessage, if_neg hne, if_pos hfull]
      exact h
    · rw [join_success_eq st c rid uid g hne hfull]
      constructor
      · intro r
        by_cases hr : r = normalizeRoom rid
        · subst hr
          simp only [members, lookupA_upsert_self, Option.getD_some]
          exact nodup_setAdd (h.1 (normalizeRoom rid)) c
        · show ((lookupA (upsertA st.rooms (normalizeRoom rid) _) r).getD []).Nodup
          rw [lookupA_upsert_ne _ _ hr]
          exact h.1 r
      · intro r c' hmem'
        by_cases hr : r = normalizeRoom rid
        · subst hr
          simp only [members, lookupA_upsert_self, Option.getD_some] at hmem'
          rcases mem_setAdd.mp hmem' with hold | rfl
          · obtain ⟨u, hu⟩ := h.2 (normalizeRoom rid) c' hold
            have hne' : c' ≠ c := by
              rintro rfl
              rw [hfresh] at hu
              cases hu
            refine ⟨u, ?_⟩
            show lookupA (upsertA st.peerByWs c _) c' = _
            rw [lookupA_upsert_ne _ _ hne']
            exact hu
          · exact ⟨_, lookupA_upsert_self _ _ _⟩
        · have hmem2 : c' ∈ members st r := by
            rw [members] at hmem' ⊢
            rwa [lookupA_upsert_ne _ _ hr] at hmem'
          obtain ⟨u, hu⟩ := h.2 r c' hmem2
          have hne' : c' ≠ c := by
            rintro rfl
            rw [hfresh] at hu
            cases hu
          refine ⟨u, ?_⟩
          show lookupA (upsertA st.peerByWs c _) c' = _
          rw [lookupA_upsert_ne _ _ hne']
          exact hu

theorem consistent_step {st : ServerState} {e : Event} (h : RoomsConsistent st)
    (hfresh : freshOk st e = true) : RoomsConsistent (step st e).1 := by
  rcases e with c | ⟨c, m, g⟩ | c
  · exact h
  · rcases m with ⟨rid, uid⟩ | ⟨t, toId, sdp, cand⟩ | _ | _
    · have : lookupA st.peerByWs c = none := by
        rw [freshOk, Option.isNone_iff_eq_none] at hfresh
        exact hfresh
      exact consistent_join h this
    · rw [step, signal_state_unchanged]
      exact h
    · exact consistent_leaveRoom h c
    · exact h
  · exact consistent_leaveRoom
      (show RoomsConsistent { st with openConns := st.openConns.erase c } from h) c

theorem consistent_runTrace {st : ServerState} (h : RoomsConsistent st)
    {es : List Event} (hfresh : joinFresh st es = true) :
    RoomsConsistent (runTrace st es).1 := by
  induction es generalizing st with
  | nil => exact h
  | cons e t ih =>
    rw [joinFresh, Bool.and_eq_true] at hfresh
    exact ih (consistent_step h hfresh.1) hfresh.2

/-- C6 (amended): as long as no connection sends a `join` while it is still
associated, every reachable state keeps each connection in the member set
of at most one room (and joins then never overwrite an existing
association).  A `join` from an associated connection, however, does
overwrite the association and can leave the connection in two rooms. -/
theorem member_of_at_most_one_room (es : List Event)
    (hfresh : joinFresh initState es = true) :
    ∀ c r r', c ∈ members (runTrace initState es).1 r →
      c ∈ members (runTrace initState es).1 r' → r = r' := by
  have hinv := consistent_runTrace consistent_init hfresh
  intro c r r' h1 h2
  obtain ⟨u, hu⟩ := hinv.2 r c h1
  obtain ⟨u', hu'⟩ := hinv.2 r' c h2
  rw [hu] at hu'
  exact congrArg PeerInfo.roomId (Option.some.inj hu')

/-- Concrete witness for the amended C6. -/
theorem member_of_at_most_one_room_witness :
    joinFresh initState
      [.connect 1, .message 1 (.join "a" "u") "g",
       .message 1 .leave "g0", .message 1 (.join "b" "v") "g"] = true ∧
    ("b" : String) = "b" :=
  ⟨by decide,
   member_of_at_most_one_room
     [.connect 1, .message 1 (.join "a" "u") "g",
      .message 1 .leave "g0", .message 1 (.join "b" "v") "g"]
     (by decide) 1 "b" "b" (by decide) (by decide)⟩
